import Mathlib

/-!
# Outbound packet dispatcher (`send_queue.go`)

A shallow embedding of `sendQueue` and its methods `Send`, `WouldBlock`,
`Available`, `Run`, `ChangeAddr` and `Close`.

* Go channels are modelled by their contents: the buffered channel `queue`
  is the list of buffers it holds (oldest first), the capacity-1 channels
  `available` and `changeAddr` are a flag and an optional value, and the
  unbuffered signalling channels `closeCalled` and `runStopped` record
  whether they have been closed.
* A Go `select` picks one of its ready cases at random.  The random pick is
  an explicit natural number `rnd`: the case taken is the
  `rnd % (number of ready cases)`-th ready case in source order.  With no
  ready case the `default` branch runs, or the goroutine blocks.
* `Run.iter` is one iteration of the `for` loop of `Run` that no producer
  interrupts, and `exec` interleaves producer calls between such iterations.
  In the source a producer can also run between the receive `p := <-h.queue`
  and the rest of that case.  `Run.recv` and `Run.finish` are these two halves
  (`Run.iter` is the one followed by the other), and `fineExec` interleaves
  producer calls between them as well; the statement about the readiness
  token, the one that depends on it, is made over `fineExec`.
* The connection `conn` is a parameter: the result of `conn.Write` is an
  arbitrary function of everything the worker did before and the bytes
  written.
-/

namespace SendQueue

/-- The Go `error` values a connection may return, identified by a code. -/
abbrev Error := Nat

/-- A `*packetBuffer`: `ptr` is the identity of the pointer, `Data` the bytes
of the serialized packet. -/
structure packetBuffer where
  ptr : Nat
  Data : List Nat
deriving DecidableEq, Repr

/-- The destination descriptor `netAddrInfo` (address and packet info). -/
structure netAddrInfo where
  addr : Nat
  info : Nat
deriving DecidableEq, Repr

/-- What the worker does to its collaborators, in the order it does it:
`conn.Write(p.Data)` together with the value it returned, `p.Release()`, and
`conn.SetRemoteAddr(addr, info)`. -/
inductive Event where
  | Write (p : packetBuffer) (err : Option Error)
  | Release (p : packetBuffer)
  | SetRemoteAddr (addr : Nat) (info : Nat)
deriving DecidableEq, Repr

/-- The connection capability `sendConn`.  `Write` gives the error returned
by `conn.Write(data)` (`none` for `nil`) as a function of the events so far
and the bytes.  `SetRemoteAddr` has no result. -/
structure sendConn where
  Write : List Event → List Nat → Option Error

/-- State of a signalling channel field: not yet closed, closed, or the field
has been overwritten with `nil`. -/
inductive Chan where
  | idle
  | closed
  | nilled
deriving DecidableEq, Repr

/-- The dispatcher.  The first five fields are the channels of the Go struct
`sendQueue`; `shouldClose` is the local variable of `Run`, `ret` is the value
`Run` returned once it has returned, and `trace` records the calls `Run`
made on the connection and on the buffers. -/
structure sendQueue where
  queue : List packetBuffer
  closeCalled : Chan
  runStopped : Bool
  available : Bool
  changeAddr : Option netAddrInfo
  shouldClose : Bool
  ret : Option (Option Error)
  trace : List Event
deriving DecidableEq, Repr

/-- Capacity of the `queue` channel. -/
def sendQueueCapacity : Nat := 8

/-- The dispatcher returned by `newSendQueue(conn)`: every channel is empty
and open, and `Run` has not done anything yet. -/
def newSendQueue : sendQueue :=
  { queue := []
    closeCalled := Chan.idle
    runStopped := false
    available := false
    changeAddr := none
    shouldClose := false
    ret := none
    trace := [] }

/-- Result of a call that may panic. -/
inductive Outcome (α : Type) where
  | returned (a : α)
  | panicked (msg : String)
deriving DecidableEq, Repr

/-- The case a Go `select` takes among its ready cases (listed in source
order), `none` when no case is ready. -/
def selectReady {α : Type} (ready : List α) (rnd : Nat) : Option α :=
  ready[rnd % ready.length]?

/-- The two communication cases of the `select` in `Send`. -/
inductive SendCase where
  | enqueue
  | runStopped
deriving DecidableEq, Repr

/-- The cases of the `select` in `Send` that can proceed: the send on `queue`
when the channel has room, the receive on `runStopped` when it is closed. -/
def Send.ready (h : sendQueue) : List SendCase :=
  (if h.queue.length < sendQueueCapacity then [SendCase.enqueue] else []) ++
  (if h.runStopped then [SendCase.runStopped] else [])

/-- `Send(p)`: enqueue `p`, or do nothing when `runStopped` is closed, or
panic when neither is possible. -/
def Send (h : sendQueue) (p : packetBuffer) (rnd : Nat) : Outcome sendQueue :=
  match selectReady (Send.ready h) rnd with
  | some SendCase.enqueue => Outcome.returned { h with queue := h.queue ++ [p] }
  | some SendCase.runStopped => Outcome.returned h
  | none => Outcome.panicked "sendQueue.Send would have blocked"

/-- `WouldBlock()`: `len(h.queue) == sendQueueCapacity`. -/
def WouldBlock (h : sendQueue) : Bool :=
  h.queue.length == sendQueueCapacity

/-- `Available()` returns the channel `h.available`; its observable content is
whether a readiness token is waiting on it. -/
def Available (h : sendQueue) : Bool :=
  h.available

/-- A producer receives from `Available()`: possible only when a token is
pending, and it takes the token. -/
def recvAvailable (h : sendQueue) : Option sendQueue :=
  if h.available then some { h with available := false } else none

/-- The three cases of the `select` in `Run`. -/
inductive RunCase where
  | closeCalled
  | queue
  | changeAddr
deriving DecidableEq, Repr

/-- The cases of the `select` in `Run` that can proceed. -/
def Run.ready (h : sendQueue) : List RunCase :=
  (if h.closeCalled = Chan.closed then [RunCase.closeCalled] else []) ++
  (if h.queue.length = 0 then [] else [RunCase.queue]) ++
  (if h.changeAddr.isSome then [RunCase.changeAddr] else [])

/-- One iteration of the `for` loop of `Run` that no producer call
interrupts (`Run.recv` and `Run.finish` are its two halves).  `none`: the loop
has already been left, or the `select` blocks.  When the iteration returns from `Run`,
the deferred `close(h.runStopped)` runs and the returned value is kept in
`ret`. -/
def Run.iter (conn : sendConn) (h : sendQueue) (rnd : Nat) : Option sendQueue :=
  if h.runStopped then none
  else if h.shouldClose && h.queue.length == 0 then
    some { h with runStopped := true, ret := some none }
  else
    match selectReady (Run.ready h) rnd with
    | none => none
    | some RunCase.closeCalled =>
      some { h with closeCalled := Chan.nilled, shouldClose := true }
    | some RunCase.queue =>
      match h.queue with
      | [] => none
      | p :: rest =>
        match conn.Write h.trace p.Data with
        | some err =>
          some { h with
            queue := rest
            trace := h.trace ++ [Event.Write p (some err)]
            runStopped := true
            ret := some (some err) }
        | none =>
          some { h with
            queue := rest
            trace := h.trace ++ [Event.Write p none, Event.Release p]
            available := true }
    | some RunCase.changeAddr =>
      match h.changeAddr with
      | none => none
      | some changeAddr =>
        some { h with
          changeAddr := none
          trace := h.trace ++ [Event.SetRemoteAddr changeAddr.addr changeAddr.info] }

/-- `Run()` executed by the worker on its own: loop iterations are taken, one
random pick each, until the loop is left, the `select` blocks, or the picks
run out. -/
def Run (conn : sendConn) : List Nat → sendQueue → sendQueue
  | [], h => h
  | rnd :: rnds, h =>
    match Run.iter conn h rnd with
    | some h' => Run conn rnds h'
    | none => h

/-- `ChangeAddr(addr)`: a non-blocking send on the capacity-1 channel
`changeAddr`; the result is paired with the state after the call. -/
def ChangeAddr (h : sendQueue) (addr : netAddrInfo) : Bool × sendQueue :=
  match h.changeAddr with
  | none => (true, { h with changeAddr := some addr })
  | some _ => (false, h)

/-- `Close()`, first statement: `close(h.closeCalled)`.  Closing a closed or a
nil channel panics.  The second statement, `<-h.runStopped`, lets `Close`
return once `runStopped` is closed (see `Close.returns`). -/
def Close (h : sendQueue) : Outcome sendQueue :=
  match h.closeCalled with
  | Chan.idle => Outcome.returned { h with closeCalled := Chan.closed }
  | Chan.closed => Outcome.panicked "close of closed channel"
  | Chan.nilled => Outcome.panicked "close of nil channel"

/-- Whether the receive `<-h.runStopped` at the end of `Close()` can proceed. -/
def Close.returns (h : sendQueue) : Bool :=
  h.runStopped

/-- The calls that move the dispatcher: the producer-side methods and one
loop iteration of the worker. -/
inductive Action where
  | Send (p : packetBuffer) (rnd : Nat)
  | ChangeAddr (addr : netAddrInfo)
  | Close
  | recvAvailable
  | RunIter (rnd : Nat)
deriving DecidableEq, Repr

/-- One action taken from state `h`.  `none`: the action panics or cannot
proceed in `h`. -/
def step (conn : sendConn) (h : sendQueue) : Action → Option sendQueue
  | Action.Send p rnd =>
    match Send h p rnd with
    | Outcome.returned h' => some h'
    | Outcome.panicked _ => none
  | Action.ChangeAddr addr => some (ChangeAddr h addr).2
  | Action.Close =>
    match Close h with
    | Outcome.returned h' => some h'
    | Outcome.panicked _ => none
  | Action.recvAvailable => recvAvailable h
  | Action.RunIter rnd => Run.iter conn h rnd

/-- A sequence of actions taken one after the other. -/
def exec (conn : sendConn) : sendQueue → List Action → Option sendQueue
  | h, [] => some h
  | h, a :: as =>
    match step conn h a with
    | some h' => exec conn h' as
    | none => none

/-! ## The worker step by step -/

/-- The first half of a loop iteration of `Run`: the test at the top of the
loop and the `select`, where the queue case does no more than the receive
`p := <-h.queue`.  The result is the state together with the buffer received,
if the queue case was taken.  `none`: the loop has already been left, or the
`select` blocks. -/
def Run.recv (h : sendQueue) (rnd : Nat) : Option (sendQueue × Option packetBuffer) :=
  if h.runStopped then none
  else if h.shouldClose && h.queue.length == 0 then
    some ({ h with runStopped := true, ret := some none }, none)
  else
    match selectReady (Run.ready h) rnd with
    | none => none
    | some RunCase.closeCalled =>
      some ({ h with closeCalled := Chan.nilled, shouldClose := true }, none)
    | some RunCase.queue =>
      match h.queue with
      | [] => none
      | p :: rest => some ({ h with queue := rest }, some p)
    | some RunCase.changeAddr =>
      match h.changeAddr with
      | none => none
      | some changeAddr =>
        some ({ h with
          changeAddr := none
          trace := h.trace ++ [Event.SetRemoteAddr changeAddr.addr changeAddr.info] }, none)

/-- The second half of the queue case of `Run`, for the buffer `p` received:
`conn.Write(p.Data)`, then either `return err`, or `p.Release()` and the
non-blocking send on `h.available`. -/
def Run.finish (conn : sendConn) (h : sendQueue) (p : packetBuffer) : sendQueue :=
  match conn.Write h.trace p.Data with
  | some err =>
    { h with
      trace := h.trace ++ [Event.Write p (some err)]
      runStopped := true
      ret := some (some err) }
  | none =>
    { h with
      trace := h.trace ++ [Event.Write p none, Event.Release p]
      available := true }

/-- The dispatcher together with the buffer the worker has received from the
queue and not yet written. -/
structure fineState where
  h : sendQueue
  held : Option packetBuffer
deriving DecidableEq, Repr

/-- The calls of producers and the two halves of a loop iteration of the
worker. -/
inductive FineAction where
  | Send (p : packetBuffer) (rnd : Nat)
  | ChangeAddr (addr : netAddrInfo)
  | Close
  | recvAvailable
  | RunRecv (rnd : Nat)
  | RunFinish
deriving DecidableEq, Repr

/-- The state of the worker is kept while a producer call changes the
dispatcher. -/
def fineState.withDispatcher (s : fineState) : Option sendQueue → Option fineState
  | some h' => some { s with h := h' }
  | none => none

/-- One action taken from `s`.  The worker starts a loop iteration only when it
holds no buffer, and finishes the queue case only when it holds one. -/
def fineStep (conn : sendConn) (s : fineState) : FineAction → Option fineState
  | FineAction.Send p rnd => s.withDispatcher (step conn s.h (Action.Send p rnd))
  | FineAction.ChangeAddr addr => s.withDispatcher (step conn s.h (Action.ChangeAddr addr))
  | FineAction.Close => s.withDispatcher (step conn s.h Action.Close)
  | FineAction.recvAvailable => s.withDispatcher (step conn s.h Action.recvAvailable)
  | FineAction.RunRecv rnd =>
    match s.held with
    | some _ => none
    | none =>
      match Run.recv s.h rnd with
      | some (h', held) => some { h := h', held := held }
      | none => none
  | FineAction.RunFinish =>
    match s.held with
    | some p => some { h := Run.finish conn s.h p, held := none }
    | none => none

/-- A sequence of fine-grained actions taken one after the other. -/
def fineExec (conn : sendConn) : fineState → List FineAction → Option fineState
  | s, [] => some s
  | s, a :: as =>
    match fineStep conn s a with
    | some s' => fineExec conn s' as
    | none => none

/-- The fresh dispatcher with a worker that holds no buffer. -/
def fineInit : fineState :=
  { h := newSendQueue, held := none }

/-- The buffers passed to `Send` in a sequence of fine-grained actions. -/
def fineSent : List FineAction → List packetBuffer
  | [] => []
  | FineAction.Send p _ :: as => p :: fineSent as
  | _ :: as => fineSent as


/-! ## Observations on traces and executions -/

/-- The buffers handed to `conn.Write`, in call order, whatever the result. -/
def writes (tr : List Event) : List packetBuffer :=
  tr.filterMap fun ev =>
    match ev with
    | Event.Write p _ => some p
    | _ => none

/-- The buffers whose `conn.Write` returned `nil`, in call order. -/
def okWrites (tr : List Event) : List packetBuffer :=
  tr.filterMap fun ev =>
    match ev with
    | Event.Write p none => some p
    | _ => none

/-- The buffers on which `Release` was called, in call order. -/
def releases (tr : List Event) : List packetBuffer :=
  tr.filterMap fun ev =>
    match ev with
    | Event.Release p => some p
    | _ => none

/-- The arguments of the `conn.SetRemoteAddr` calls, in call order. -/
def setAddrs (tr : List Event) : List (Nat × Nat) :=
  tr.filterMap fun ev =>
    match ev with
    | Event.SetRemoteAddr a i => some (a, i)
    | _ => none

/-- The events that concern buffers: the trace without the
`conn.SetRemoteAddr` calls. -/
def bufferEvents (tr : List Event) : List Event :=
  tr.filter fun ev =>
    match ev with
    | Event.SetRemoteAddr _ _ => false
    | _ => true

/-- A successful write of `p` directly followed by the release of `p`. -/
def writeThenRelease (p : packetBuffer) : List Event :=
  [Event.Write p none, Event.Release p]

/-- The buffers passed to `Send` in a sequence of actions, in call order. -/
def sent : List Action → List packetBuffer
  | [] => []
  | Action.Send p _ :: as => p :: sent as
  | _ :: as => sent as

/-- Every `Send` of the execution of `acts` from `h` is called while the
queue has room and the worker loop has not been left. -/
def sendsAdmitted (conn : sendConn) : sendQueue → List Action → Bool
  | _, [] => true
  | h, a :: as =>
    (match a with
     | Action.Send _ _ => decide (h.queue.length < sendQueueCapacity) && !h.runStopped
     | _ => true) &&
    (match step conn h a with
     | some h' => sendsAdmitted conn h' as
     | none => true)

/-- The close signal has been raised and `Run` can still see it: either
`closeCalled` is closed, or `Run` has already recorded it in `shouldClose`. -/
def closeRaised (h : sendQueue) : Prop :=
  h.closeCalled = Chan.closed ∨ h.shouldClose = true

/-- Number of loop iterations of `Run` that neither dequeue nor return and
are still possible: one for a visible close signal, one for a pending
address change. -/
def sideWork (h : sendQueue) : Nat :=
  (if h.closeCalled = Chan.closed then 1 else 0) + (if h.changeAddr.isSome then 1 else 0)

/-- The descriptors passed to `ChangeAddr` in a sequence of actions, in call
order. -/
def changeAddrCalls : List Action → List netAddrInfo
  | [] => []
  | Action.ChangeAddr d :: as => d :: changeAddrCalls as
  | _ :: as => changeAddrCalls as

/-- The release discipline of the worker: the buffer events of the trace are
successful writes each directly followed by the release of the same buffer,
possibly ended by one failed write after which `Run` has returned; and the
released buffers are the successfully written ones, in the same order. -/
def disciplined (h : sendQueue) : Prop :=
  (∃ (ps : List packetBuffer) (tail : List Event),
    bufferEvents h.trace = ps.flatMap writeThenRelease ++ tail ∧
    (tail = [] ∨ (h.runStopped = true ∧ ∃ q e, tail = [Event.Write q (some e)]))) ∧
  releases h.trace = okWrites h.trace

/-! ## Concrete connections, buffers and states used in the examples -/

/-- A connection whose `Write` never fails. -/
def okConn : sendConn :=
  { Write := fun _ _ => none }

/-- A connection whose `k`-th `Write` call fails with `e`; every other call
succeeds. -/
def failAt (k : Nat) (e : Error) : sendConn :=
  { Write := fun tr _ => if (writes tr).length + 1 = k then some e else none }

/-- The buffer with pointer `n` holding the single byte `n`. -/
def buf (n : Nat) : packetBuffer :=
  { ptr := n, Data := [n] }

/-- Buffers `buf n, buf (n+1), ..., buf (n+k-1)`. -/
def bufs (n k : Nat) : List packetBuffer :=
  (List.range k).map fun i => buf (n + i)

/-- Admit each buffer of `xs` in turn, with its random pick. -/
def sendAll (xs : List (packetBuffer × Nat)) : List Action :=
  xs.map fun x => Action.Send x.1 x.2

/-- Two admissions and one loop iteration. -/
def orderActs : List Action :=
  [Action.Send (buf 1) 0, Action.Send (buf 2) 0, Action.RunIter 0]

/-- One more admission and one more loop iteration. -/
def orderLater : List Action :=
  [Action.Send (buf 3) 0, Action.RunIter 0]

/-- The state after `orderActs` on a connection that never fails. -/
def orderState : sendQueue :=
  { newSendQueue with
    queue := [buf 2]
    available := true
    trace := [Event.Write (buf 1) none, Event.Release (buf 1)] }

/-- Eight admissions, a loop iteration whose write fails, and one more
admission that the `select` of `Send` resolves in favour of the queue. -/
def fullStoppedActs : List Action :=
  sendAll ((bufs 1 8).map fun p => (p, 0)) ++ [Action.RunIter 0, Action.Send (buf 9) 0]

/-- The state after `fullStoppedActs` on `failAt 1 1`: the worker loop has
been left and the queue is full. -/
def fullStopped : sendQueue :=
  { newSendQueue with
    queue := bufs 2 8
    runStopped := true
    ret := some (some 1)
    trace := [Event.Write (buf 1) (some 1)] }

/-- A running dispatcher whose queue is full. -/
def fullRunning : sendQueue :=
  { newSendQueue with queue := bufs 1 8 }

/-- The state after `Close()` was called on a fresh dispatcher and `Run`
returned `nil`. -/
def closedEmpty : sendQueue :=
  { newSendQueue with
    closeCalled := Chan.nilled
    shouldClose := true
    runStopped := true
    ret := some none }


/-- One admission, a loop iteration that writes it and posts the readiness
token, then eight admissions, each into a queue that has room. -/
def tokenFullActs : List Action :=
  [Action.Send (buf 1) 0, Action.RunIter 0] ++ sendAll ((bufs 2 8).map fun p => (p, 0))

/-- The state after `tokenFullActs` on a connection that never fails. -/
def tokenFull : sendQueue :=
  { newSendQueue with
    queue := bufs 2 8
    available := true
    trace := [Event.Write (buf 1) none, Event.Release (buf 1)] }


/-- The state after one admission and a loop iteration whose write fails with
error 7. -/
def failedFirst : sendQueue :=
  { newSendQueue with
    runStopped := true
    ret := some (some 7)
    trace := [Event.Write (buf 1) (some 7)] }


/-- A running dispatcher with two buffers queued on which `Close()` has just
raised the close signal. -/
def drainStart : sendQueue :=
  { newSendQueue with queue := [buf 1, buf 2], closeCalled := Chan.closed }

/-- A running dispatcher with five buffers queued. -/
def fiveQueued : sendQueue :=
  { newSendQueue with queue := bufs 1 5 }


/-- A drain interleaved with calls of producers: the worker sees the close
signal, an address change is requested, the worker writes the first buffer,
a producer takes the readiness token, the worker writes the second buffer
and then returns. -/
def drainActs : List Action :=
  [Action.RunIter 0, Action.ChangeAddr ⟨1, 1⟩, Action.RunIter 0, Action.recvAvailable,
    Action.RunIter 0, Action.RunIter 0]

/-- The state after `drainActs` from `drainStart` on a connection that never
fails. -/
def drainEnd : sendQueue :=
  { queue := []
    closeCalled := Chan.nilled
    runStopped := true
    available := true
    changeAddr := some ⟨1, 1⟩
    shouldClose := true
    ret := some none
    trace := [Event.Write (buf 1) none, Event.Release (buf 1),
      Event.Write (buf 2) none, Event.Release (buf 2)] }


/-- Eight admissions, the receive of the first buffer by the worker, a ninth
admission into the slot just freed, and the rest of the queue case. -/
def lateSendActs : List FineAction :=
  ((bufs 1 8).map fun p => FineAction.Send p 0) ++
    [FineAction.RunRecv 0, FineAction.Send (buf 9) 0, FineAction.RunFinish]

/-- The state after `lateSendActs` on a connection that never fails. -/
def lateSend : fineState :=
  { h := { newSendQueue with
      queue := bufs 2 8
      available := true
      trace := [Event.Write (buf 1) none, Event.Release (buf 1)] }
    held := none }

/-- Two buffers queued in a running dispatcher. -/
def twoQueued : fineState :=
  { h := { newSendQueue with queue := [buf 1, buf 2] }, held := none }

/-- From `twoQueued`, the worker has received the first buffer. -/
def twoQueuedRecv : fineState :=
  { h := { newSendQueue with queue := [buf 2] }, held := some (buf 1) }

/-- From `twoQueuedRecv`, an address change has been requested. -/
def twoQueuedAddr : fineState :=
  { h := { newSendQueue with queue := [buf 2], changeAddr := some ⟨1, 1⟩ }
    held := some (buf 1) }

/-- From `twoQueuedAddr`, the worker has written and released the buffer and
posted the readiness token. -/
def twoQueuedPosted : fineState :=
  { h := { newSendQueue with
      queue := [buf 2]
      changeAddr := some ⟨1, 1⟩
      available := true
      trace := [Event.Write (buf 1) none, Event.Release (buf 1)] }
    held := none }

/-- From `twoQueuedPosted`, a producer has taken the readiness token. -/
def twoQueuedTaken : fineState :=
  { h := { newSendQueue with
      queue := [buf 2]
      changeAddr := some ⟨1, 1⟩
      trace := [Event.Write (buf 1) none, Event.Release (buf 1)] }
    held := none }

/-! ## How `select`, `Send` and one iteration of `Run` behave -/

theorem selectReady_mem {α : Type} {ready : List α} {rnd : Nat} {c : α}
    (hc : selectReady ready rnd = some c) : c ∈ ready := by
  unfold selectReady at hc
  exact List.getElem?_mem hc

theorem selectReady_single {α : Type} (x : α) (rnd : Nat) :
    selectReady [x] rnd = some x := by
  simp [selectReady, Nat.mod_one]

theorem selectReady_nil {α : Type} (rnd : Nat) :
    selectReady ([] : List α) rnd = none := by
  simp [selectReady]

theorem selectReady_some {α : Type} {ready : List α} (hne : ready ≠ []) (rnd : Nat) :
    ∃ c, selectReady ready rnd = some c := by
  have hpos : 0 < ready.length := List.length_pos.mpr hne
  have hlt : rnd % ready.length < ready.length := Nat.mod_lt _ hpos
  exact ⟨ready[rnd % ready.length], by simp [selectReady, List.getElem?_eq_getElem hlt]⟩

theorem Send_returned {h h' : sendQueue} {p : packetBuffer} {rnd : Nat}
    (hs : Send h p rnd = Outcome.returned h') :
    (h.queue.length < sendQueueCapacity ∧ h' = { h with queue := h.queue ++ [p] }) ∨
    (h.runStopped = true ∧ h' = h) := by
  unfold Send at hs
  split at hs
  · rename_i hsel
    have hm := selectReady_mem hsel
    simp only [Send.ready, List.mem_append] at hm
    injection hs with hs
    rcases hm with hm | hm
    · left
      by_cases hq : h.queue.length < sendQueueCapacity
      · exact ⟨hq, hs.symm⟩
      · simp [hq] at hm
    · by_cases hr : h.runStopped = true
      · simp [hr] at hm
      · simp [hr] at hm
  · rename_i hsel
    have hm := selectReady_mem hsel
    simp only [Send.ready, List.mem_append] at hm
    injection hs with hs
    rcases hm with hm | hm
    · by_cases hq : h.queue.length < sendQueueCapacity
      · simp [hq] at hm
      · simp [hq] at hm
    · right
      by_cases hr : h.runStopped = true
      · exact ⟨hr, hs.symm⟩
      · simp [hr] at hm
  · cases hs

theorem Send_running {h : sendQueue} (p : packetBuffer) (rnd : Nat)
    (hq : h.queue.length < sendQueueCapacity) (hr : h.runStopped = false) :
    Send h p rnd = Outcome.returned { h with queue := h.queue ++ [p] } := by
  have hready : Send.ready h = [SendCase.enqueue] := by simp [Send.ready, hq, hr]
  simp [Send, hready, selectReady_single]

theorem Send_full_running {h : sendQueue} (p : packetBuffer) (rnd : Nat)
    (hq : h.queue.length = sendQueueCapacity) (hr : h.runStopped = false) :
    Send h p rnd = Outcome.panicked "sendQueue.Send would have blocked" := by
  have hready : Send.ready h = [] := by simp [Send.ready, hq, hr]
  simp [Send, hready, selectReady_nil]

theorem Send_full_stopped {h : sendQueue} (p : packetBuffer) (rnd : Nat)
    (hq : ¬ h.queue.length < sendQueueCapacity) (hr : h.runStopped = true) :
    Send h p rnd = Outcome.returned h := by
  have hready : Send.ready h = [SendCase.runStopped] := by simp [Send.ready, hq, hr]
  simp [Send, hready, selectReady_single]

/-- The five ways one loop iteration of `Run` can go. -/
theorem Run.iter_cases {conn : sendConn} {h h' : sendQueue} {rnd : Nat}
    (hi : Run.iter conn h rnd = some h') :
    h.runStopped = false ∧
    ((h.shouldClose = true ∧ h.queue = [] ∧
        h' = { h with runStopped := true, ret := some none }) ∨
     (h.closeCalled = Chan.closed ∧
        h' = { h with closeCalled := Chan.nilled, shouldClose := true }) ∨
     (∃ p rest, h.queue = p :: rest ∧ conn.Write h.trace p.Data = none ∧
        h' = { h with
          queue := rest
          trace := h.trace ++ [Event.Write p none, Event.Release p]
          available := true }) ∨
     (∃ p rest e, h.queue = p :: rest ∧ conn.Write h.trace p.Data = some e ∧
        h' = { h with
          queue := rest
          trace := h.trace ++ [Event.Write p (some e)]
          runStopped := true
          ret := some (some e) }) ∨
     (∃ d, h.changeAddr = some d ∧
        h' = { h with
          changeAddr := none
          trace := h.trace ++ [Event.SetRemoteAddr d.addr d.info] })) := by
  unfold Run.iter at hi
  split_ifs at hi with h1 h2
  · injection hi with hi
    simp only [Bool.and_eq_true, beq_iff_eq, List.length_eq_zero] at h2
    exact ⟨by simpa using h1, Or.inl ⟨h2.1, h2.2, hi.symm⟩⟩
  · refine ⟨by simpa using h1, ?_⟩
    split at hi
    · cases hi
    · rename_i hsel
      have hm := selectReady_mem hsel
      injection hi with hi
      refine Or.inr (Or.inl ⟨?_, hi.symm⟩)
      by_contra hc
      simp [Run.ready, hc] at hm
    · split at hi
      · cases hi
      · rename_i p rest hq
        split at hi
        · rename_i e he
          injection hi with hi
          exact Or.inr (Or.inr (Or.inr (Or.inl ⟨p, rest, e, hq, he, hi.symm⟩)))
        · rename_i he
          injection hi with hi
          exact Or.inr (Or.inr (Or.inl ⟨p, rest, hq, he, hi.symm⟩))
    · split at hi
      · cases hi
      · rename_i d hd
        injection hi with hi
        exact Or.inr (Or.inr (Or.inr (Or.inr ⟨d, hd, hi.symm⟩)))

/-! ## Steps and executions -/

theorem sent_cons (a : Action) (as : List Action) : sent (a :: as) = sent [a] ++ sent as := by
  cases a <;> simp [sent]

theorem sent_append (as bs : List Action) : sent (as ++ bs) = sent as ++ sent bs := by
  induction as with
  | nil => simp [sent]
  | cons a as ih =>
    rw [List.cons_append, sent_cons, ih, sent_cons a as, List.append_assoc]

/-- A producer-side call other than `Send` leaves the queue, the trace and the
state of the worker alone. -/
theorem step_frame {conn : sendConn} {h h' : sendQueue} {a : Action}
    (hs : step conn h a = some h')
    (hns : ∀ p rnd, a ≠ Action.Send p rnd) (hnr : ∀ rnd, a ≠ Action.RunIter rnd) :
    h'.queue = h.queue ∧ h'.trace = h.trace ∧ h'.runStopped = h.runStopped ∧
    h'.ret = h.ret ∧ h'.shouldClose = h.shouldClose := by
  cases a with
  | Send p rnd => exact absurd rfl (hns p rnd)
  | RunIter rnd => exact absurd rfl (hnr rnd)
  | ChangeAddr d =>
    simp only [step, Option.some.injEq] at hs
    subst hs
    unfold ChangeAddr
    split <;> simp
  | Close =>
    simp only [step, Close] at hs
    split at hs
    · rename_i hc
      split at hc
      · injection hc with hc
        injection hs with hs
        subst hs
        subst hc
        simp
      · cases hc
      · cases hc
    · cases hs
  | recvAvailable =>
    simp only [step, recvAvailable] at hs
    split_ifs at hs
    injection hs with hs
    subst hs
    simp

/-- No step makes the queue longer than the capacity of the channel. -/
theorem step_queue_le {conn : sendConn} {h h' : sendQueue} {a : Action}
    (hs : step conn h a = some h') (hle : h.queue.length ≤ sendQueueCapacity) :
    h'.queue.length ≤ sendQueueCapacity := by
  cases a with
  | Send p rnd =>
    simp only [step] at hs
    split at hs
    · rename_i hsend
      injection hs with hs
      subst hs
      rcases Send_returned hsend with ⟨hq, rfl⟩ | ⟨_, rfl⟩
      · simp only [List.length_append, List.length_singleton]
        omega
      · exact hle
    · cases hs
  | RunIter rnd =>
    obtain ⟨_, ⟨_, _, rfl⟩ | ⟨_, rfl⟩ | ⟨p, rest, hq, _, rfl⟩ | ⟨p, rest, e, hq, _, rfl⟩ |
      ⟨d, _, rfl⟩⟩ := Run.iter_cases hs
    · exact hle
    · exact hle
    · simp only [hq, List.length_cons] at hle ⊢
      omega
    · simp only [hq, List.length_cons] at hle ⊢
      omega
    · exact hle
  | ChangeAddr d => rw [(step_frame hs (by simp) (by simp)).1]; exact hle
  | Close => rw [(step_frame hs (by simp) (by simp)).1]; exact hle
  | recvAvailable => rw [(step_frame hs (by simp) (by simp)).1]; exact hle

theorem exec_queue_le {conn : sendConn} :
    ∀ (acts : List Action) (h h' : sendQueue), exec conn h acts = some h' →
      h.queue.length ≤ sendQueueCapacity → h'.queue.length ≤ sendQueueCapacity := by
  intro acts
  induction acts with
  | nil =>
    intro h h' he hle
    simp only [exec, Option.some.injEq] at he
    subst he
    exact hle
  | cons a as ih =>
    intro h h' he hle
    simp only [exec] at he
    split at he
    · rename_i h1 hs
      exact ih h1 h' he (step_queue_le hs hle)
    · cases he

/-- One step keeps the buffers in order: what has been handed to `conn.Write`
followed by what is queued grows only at its end, by the buffer admitted. -/
theorem step_order {conn : sendConn} {h h' : sendQueue} {a : Action}
    (hs : step conn h a = some h')
    (ha : ∀ p rnd, a = Action.Send p rnd →
      h.queue.length < sendQueueCapacity ∧ h.runStopped = false) :
    writes h'.trace ++ h'.queue = writes h.trace ++ h.queue ++ sent [a] := by
  cases a with
  | Send p rnd =>
    obtain ⟨hq, hr⟩ := ha p rnd rfl
    simp only [step, Send_running p rnd hq hr, Option.some.injEq] at hs
    subst hs
    simp [sent]
  | RunIter rnd =>
    obtain ⟨_, ⟨_, _, rfl⟩ | ⟨_, rfl⟩ | ⟨p, rest, hq, _, rfl⟩ | ⟨p, rest, e, hq, _, rfl⟩ |
      ⟨d, _, rfl⟩⟩ := Run.iter_cases hs
    · simp [sent]
    · simp [sent]
    · simp [sent, writes, hq, List.filterMap_append]
    · simp [sent, writes, hq, List.filterMap_append]
    · simp [sent, writes, List.filterMap_append]
  | ChangeAddr d =>
    obtain ⟨h1, h2, _⟩ := step_frame hs (by simp) (by simp)
    simp [h1, h2, sent]
  | Close =>
    obtain ⟨h1, h2, _⟩ := step_frame hs (by simp) (by simp)
    simp [h1, h2, sent]
  | recvAvailable =>
    obtain ⟨h1, h2, _⟩ := step_frame hs (by simp) (by simp)
    simp [h1, h2, sent]

theorem exec_order {conn : sendConn} :
    ∀ (acts : List Action) (h h' : sendQueue), exec conn h acts = some h' →
      sendsAdmitted conn h acts = true →
      writes h'.trace ++ h'.queue = writes h.trace ++ h.queue ++ sent acts := by
  intro acts
  induction acts with
  | nil =>
    intro h h' he _
    simp only [exec, Option.some.injEq] at he
    subst he
    simp [sent]
  | cons a as ih =>
    intro h h' he hadm
    simp only [exec] at he
    split at he
    · rename_i h1 hs
      simp only [sendsAdmitted, hs, Bool.and_eq_true] at hadm
      have hstep : writes h1.trace ++ h1.queue = writes h.trace ++ h.queue ++ sent [a] := by
        apply step_order hs
        intro p rnd hp
        subst hp
        simpa using hadm.1
      rw [ih h1 h' he hadm.2, hstep, sent_cons a as, List.append_assoc]
    · cases he

theorem sendsAdmitted_left {conn : sendConn} :
    ∀ (as bs : List Action) (h : sendQueue),
      sendsAdmitted conn h (as ++ bs) = true → sendsAdmitted conn h as = true := by
  intro as
  induction as with
  | nil => intro bs h _; rfl
  | cons a as ih =>
    intro bs h hadm
    simp only [List.cons_append, sendsAdmitted, Bool.and_eq_true] at hadm ⊢
    refine ⟨hadm.1, ?_⟩
    cases hs : step conn h a with
    | none => rfl
    | some h1 =>
      have h2 := hadm.2
      simp only [hs] at h2
      exact ih bs h1 h2

/-- Once the worker loop has been left nothing is written or released any
more, whatever is called afterwards. -/
theorem exec_stopped {conn : sendConn} :
    ∀ (acts : List Action) (h h' : sendQueue), h.runStopped = true →
      exec conn h acts = some h' → h'.runStopped = true ∧ h'.trace = h.trace := by
  intro acts
  induction acts with
  | nil =>
    intro h h' hr he
    simp only [exec, Option.some.injEq] at he
    subst he
    exact ⟨hr, rfl⟩
  | cons a as ih =>
    intro h h' hr he
    simp only [exec] at he
    split at he
    · rename_i h1 hs
      have h1ok : h1.runStopped = true ∧ h1.trace = h.trace := by
        cases a with
        | Send p rnd =>
          simp only [step] at hs
          split at hs
          · rename_i hsend
            injection hs with hs
            subst hs
            rcases Send_returned hsend with ⟨_, rfl⟩ | ⟨_, rfl⟩
            · exact ⟨hr, rfl⟩
            · exact ⟨hr, rfl⟩
          · cases hs
        | RunIter rnd =>
          simp [step, Run.iter, hr] at hs
        | ChangeAddr d =>
          obtain ⟨_, h2, h3, _⟩ := step_frame hs (by simp) (by simp)
          exact ⟨h3 ▸ hr, h2⟩
        | Close =>
          obtain ⟨_, h2, h3, _⟩ := step_frame hs (by simp) (by simp)
          exact ⟨h3 ▸ hr, h2⟩
        | recvAvailable =>
          obtain ⟨_, h2, h3, _⟩ := step_frame hs (by simp) (by simp)
          exact ⟨h3 ▸ hr, h2⟩
      obtain ⟨h4, h5⟩ := ih h1 h' h1ok.1 he
      exact ⟨h4, h5.trans h1ok.2⟩
    · cases he

/-- Admissions into a running dispatcher with enough room all succeed and
append to the queue. -/
theorem exec_sendAll {conn : sendConn} :
    ∀ (xs : List (packetBuffer × Nat)) (h : sendQueue), h.runStopped = false →
      h.queue.length + xs.length ≤ sendQueueCapacity →
      exec conn h (sendAll xs) = some { h with queue := h.queue ++ xs.map Prod.fst } := by
  intro xs
  induction xs with
  | nil => intro h _ _; simp [sendAll, exec]
  | cons x xs ih =>
    intro h hr hle
    simp only [List.length_cons] at hle
    have hq : h.queue.length < sendQueueCapacity := by omega
    have hstep : step conn h (Action.Send x.1 x.2) =
        some { h with queue := h.queue ++ [x.1] } := by
      simp only [step, Send_running x.1 x.2 hq hr]
    have hrec := ih { h with queue := h.queue ++ [x.1] } hr (by
      simp only [List.length_append, List.length_singleton]
      omega)
    simp only [sendAll, List.map_cons, exec, hstep]
    simp only [sendAll] at hrec
    rw [hrec]
    simp

/-! ## The claims -/

/-- C1 (order preservation).  In every execution from a fresh dispatcher in
which each `Send` is called while the queue has room and the worker loop is
running, at the point reached after `acts` the buffers handed to
`conn.Write` followed by the buffers still queued are exactly the buffers
admitted so far, in admission order; hence the byte slices written are a
prefix of the byte slices admitted in the whole execution `acts ++ later`.
Nothing is written out of order, twice, or skipped.  This holds whether or
not a write fails. -/
theorem order_preservation (conn : sendConn) (acts later : List Action) (h : sendQueue)
    (he : exec conn newSendQueue acts = some h)
    (hadm : sendsAdmitted conn newSendQueue (acts ++ later) = true) :
    writes h.trace ++ h.queue = sent acts ∧
    (writes h.trace).map packetBuffer.Data <+:
      (sent (acts ++ later)).map packetBuffer.Data := by
  have hord := exec_order acts newSendQueue h he (sendsAdmitted_left acts later _ hadm)
  simp only [newSendQueue, writes, List.filterMap_nil, List.nil_append] at hord
  refine ⟨hord, ?_⟩
  refine ⟨(h.queue ++ sent later).map packetBuffer.Data, ?_⟩
  rw [sent_append, ← hord]
  simp [writes]

theorem order_preservation_witness :
    writes orderState.trace ++ orderState.queue = sent orderActs ∧
    (writes orderState.trace).map packetBuffer.Data <+:
      (sent (orderActs ++ orderLater)).map packetBuffer.Data :=
  order_preservation okConn orderActs orderLater orderState (by decide) (by decide)

/-- C3, as the code has it.  When the queue holds `sendQueueCapacity` buffers
`WouldBlock()` is true, and `Send(p)` panics provided `runStopped` is not
closed; when `runStopped` is closed the `select` takes that case and `Send(p)`
returns normally, leaving the state as it was and `p` dropped. -/
theorem Send_at_capacity (h : sendQueue) (p : packetBuffer) (rnd : Nat)
    (hq : h.queue.length = sendQueueCapacity) :
    WouldBlock h = true ∧
    (h.runStopped = false →
      Send h p rnd = Outcome.panicked "sendQueue.Send would have blocked") ∧
    (h.runStopped = true → Send h p rnd = Outcome.returned h) := by
  refine ⟨by simp [WouldBlock, hq], fun hr => Send_full_running p rnd hq hr, fun hr => ?_⟩
  exact Send_full_stopped p rnd (by omega) hr

theorem Send_at_capacity_witness :
    WouldBlock fullRunning = true ∧
    Send fullRunning (buf 9) 0 = Outcome.panicked "sendQueue.Send would have blocked" ∧
    Send fullStopped (buf 10) 0 = Outcome.returned fullStopped :=
  ⟨(Send_at_capacity fullRunning (buf 9) 0 (by decide)).1,
   (Send_at_capacity fullRunning (buf 9) 0 (by decide)).2.1 (by decide),
   (Send_at_capacity fullStopped (buf 10) 0 (by decide)).2.2 (by decide)⟩

/-- C3 fails as stated: `fullStopped` is reached from a fresh dispatcher, its
queue holds `sendQueueCapacity` buffers and `WouldBlock()` is true, yet
`Send` returns normally and the buffer is dropped. -/
theorem Send_at_capacity_stopped_returns :
    exec (failAt 1 1) newSendQueue fullStoppedActs = some fullStopped ∧
    fullStopped.queue.length = sendQueueCapacity ∧
    WouldBlock fullStopped = true ∧
    Send fullStopped (buf 10) 0 = Outcome.returned fullStopped := by
  decide

/-- C4, as the code has it.  When `runStopped` is closed, `Send(p)` returns
without panicking.  The state it leaves is either the state it found (`p` is
dropped), which is the only possibility when the queue is full, or, when the
queue has room, the state with `p` appended to the queue.  Either way nothing
is written or released by the call or by anything called afterwards. -/
theorem Send_after_stop (conn : sendConn) (h : sendQueue) (p : packetBuffer) (rnd : Nat)
    (hr : h.runStopped = true) :
    (Send h p rnd = Outcome.returned h ∨
      (h.queue.length < sendQueueCapacity ∧
        Send h p rnd = Outcome.returned { h with queue := h.queue ++ [p] })) ∧
    (h.queue.length = sendQueueCapacity → Send h p rnd = Outcome.returned h) ∧
    (∀ h', Send h p rnd = Outcome.returned h' →
      ∀ acts h'', exec conn h' acts = some h'' → h''.trace = h.trace) := by
  have hne : Send.ready h ≠ [] := by simp [Send.ready, hr]
  obtain ⟨c, hc⟩ := selectReady_some hne rnd
  have hret : ∃ h', Send h p rnd = Outcome.returned h' := by
    unfold Send
    rw [hc]
    cases c
    · exact ⟨_, rfl⟩
    · exact ⟨_, rfl⟩
  obtain ⟨h', hs⟩ := hret
  refine ⟨?_, ?_, ?_⟩
  · rcases Send_returned hs with ⟨hq, hh⟩ | ⟨_, hh⟩
    · exact Or.inr ⟨hq, hh ▸ hs⟩
    · exact Or.inl (hh ▸ hs)
  · intro hq
    rcases Send_returned hs with ⟨hq', _⟩ | ⟨_, hh⟩
    · omega
    · exact hh ▸ hs
  · intro h1 hs1 acts h'' he
    rcases Send_returned hs1 with ⟨_, hh⟩ | ⟨_, hh⟩
    · subst hh
      exact (exec_stopped acts { h with queue := h.queue ++ [p] } h'' hr he).2
    · subst hh
      exact (exec_stopped acts h1 h'' hr he).2

theorem Send_after_stop_witness :
    (Send closedEmpty (buf 1) 1 = Outcome.returned closedEmpty ∨
      (closedEmpty.queue.length < sendQueueCapacity ∧
        Send closedEmpty (buf 1) 1 =
          Outcome.returned { closedEmpty with queue := closedEmpty.queue ++ [buf 1] })) ∧
    Send fullStopped (buf 10) 0 = Outcome.returned fullStopped ∧
    ({ closedEmpty with queue := [buf 1], changeAddr := some ⟨1, 1⟩ } : sendQueue).trace =
      closedEmpty.trace :=
  ⟨(Send_after_stop okConn closedEmpty (buf 1) 1 (by decide)).1,
   (Send_after_stop okConn fullStopped (buf 10) 0 (by decide)).2.1 (by decide),
   (Send_after_stop okConn closedEmpty (buf 1) 0 (by decide)).2.2
     { closedEmpty with queue := [buf 1] } (by decide)
     [Action.ChangeAddr ⟨1, 1⟩] _ (by decide)⟩

/-- C4 fails as stated: after `Close()` and the return of `Run`, `runStopped`
is closed and the queue is empty, yet `Send` may take the queue case of its
`select` and enqueue the buffer. -/
theorem Send_after_stop_enqueues :
    exec okConn newSendQueue [Action.Close, Action.RunIter 0, Action.RunIter 0] =
      some closedEmpty ∧
    closedEmpty.runStopped = true ∧
    closedEmpty.queue = [] ∧
    Send closedEmpty (buf 1) 0 = Outcome.returned { closedEmpty with queue := [buf 1] } := by
  decide

/-- C7 (`ChangeAddr` accepts or rejects).  `ChangeAddr(d)` returns true exactly
when no request is pending, and then `d` is the pending request; otherwise it
returns false and the pending request stays.  The packet queue, the readiness
token, the shutdown signals and the worker are untouched in both cases.  The
call always returns. -/
theorem ChangeAddr_accept_reject (h : sendQueue) (d : netAddrInfo) :
    ((ChangeAddr h d).1 = true ↔ h.changeAddr = none) ∧
    (h.changeAddr = none → (ChangeAddr h d).2 = { h with changeAddr := some d }) ∧
    (h.changeAddr ≠ none → (ChangeAddr h d).1 = false ∧ (ChangeAddr h d).2 = h) ∧
    (ChangeAddr h d).2.queue = h.queue ∧
    (ChangeAddr h d).2.available = h.available ∧
    (ChangeAddr h d).2.closeCalled = h.closeCalled ∧
    (ChangeAddr h d).2.runStopped = h.runStopped := by
  cases hc : h.changeAddr <;> simp [ChangeAddr, hc]

theorem ChangeAddr_accept_reject_witness :
    (ChangeAddr newSendQueue ⟨1, 1⟩).2 = { newSendQueue with changeAddr := some ⟨1, 1⟩ } ∧
    (ChangeAddr { newSendQueue with changeAddr := some ⟨1, 1⟩ } ⟨2, 2⟩).1 = false ∧
    (ChangeAddr { newSendQueue with changeAddr := some ⟨1, 1⟩ } ⟨2, 2⟩).2 =
      { newSendQueue with changeAddr := some ⟨1, 1⟩ } :=
  ⟨(ChangeAddr_accept_reject newSendQueue ⟨1, 1⟩).2.1 (by decide),
   (ChangeAddr_accept_reject { newSendQueue with changeAddr := some ⟨1, 1⟩ } ⟨2, 2⟩).2.2.1
     (by decide)⟩

/-- C9 (backpressure).  `WouldBlock()` is true exactly when the queue holds
`sendQueueCapacity` = 8 buffers.  From a fresh dispatcher, `n ≤ 8` admissions
with nothing else in between all succeed, the queue then holds the `n`
buffers, and `WouldBlock()` is false for `n < 8` and true for `n = 8`.  From
any state in which the channel holds at most its capacity, after a loop
iteration of `Run` that dequeues a buffer and writes it successfully,
`WouldBlock()` is false. -/
theorem backpressure :
    (∀ h : sendQueue, WouldBlock h = true ↔ h.queue.length = 8) ∧
    (∀ (conn : sendConn) (xs : List (packetBuffer × Nat)), xs.length ≤ 8 →
      ∃ h, exec conn newSendQueue (sendAll xs) = some h ∧ h.queue = xs.map Prod.fst ∧
        (xs.length < 8 → WouldBlock h = false) ∧ (xs.length = 8 → WouldBlock h = true)) ∧
    (∀ (conn : sendConn) (h h' : sendQueue) (rnd : Nat) (p : packetBuffer),
      h.queue.length ≤ sendQueueCapacity → Run.iter conn h rnd = some h' →
      h'.trace = h.trace ++ [Event.Write p none, Event.Release p] →
      WouldBlock h' = false) := by
  refine ⟨fun h => by simp [WouldBlock, sendQueueCapacity], ?_, ?_⟩
  · intro conn xs hlen
    refine ⟨_, exec_sendAll xs newSendQueue rfl (by
      simp only [newSendQueue, List.length_nil, sendQueueCapacity]
      omega), by simp [newSendQueue], ?_, ?_⟩
    · intro hlt
      simp only [WouldBlock, newSendQueue, sendQueueCapacity, List.nil_append, List.length_map,
        beq_eq_false_iff_ne]
      omega
    · intro heq
      simp [WouldBlock, newSendQueue, sendQueueCapacity, heq]
  · intro conn h h' rnd p hle hi htr
    obtain ⟨_, ⟨_, _, rfl⟩ | ⟨_, rfl⟩ | ⟨q, rest, hq, _, rfl⟩ | ⟨q, rest, e, hq, _, rfl⟩ |
      ⟨d, _, rfl⟩⟩ := Run.iter_cases hi
    · simp at htr
    · simp at htr
    · simp only [hq, List.length_cons, sendQueueCapacity] at hle
      simp only [WouldBlock, sendQueueCapacity, beq_eq_false_iff_ne]
      omega
    · simp at htr
    · simp at htr

theorem backpressure_witness :
    (∃ h, exec okConn newSendQueue (sendAll ((bufs 1 8).map fun p => (p, 0))) = some h ∧
        h.queue = ((bufs 1 8).map fun p => (p, 0)).map Prod.fst ∧
        (((bufs 1 8).map fun p => (p, 0)).length < 8 → WouldBlock h = false) ∧
        (((bufs 1 8).map fun p => (p, 0)).length = 8 → WouldBlock h = true)) ∧
    WouldBlock { fullRunning with
      queue := bufs 2 7
      trace := fullRunning.trace ++ [Event.Write (buf 1) none, Event.Release (buf 1)]
      available := true } = false :=
  ⟨backpressure.2.1 okConn ((bufs 1 8).map fun p => (p, 0)) (by decide),
   backpressure.2.2 okConn fullRunning _ 0 (buf 1) (by decide) (by decide) rfl⟩

theorem sent_cons_nil {a : Action} {as : List Action} (hs : sent (a :: as) = []) :
    (∀ p rnd, a ≠ Action.Send p rnd) ∧ sent as = [] := by
  cases a <;> simp_all [sent]

theorem changeAddrCalls_cons_nil {a : Action} {as : List Action}
    (hs : changeAddrCalls (a :: as) = []) :
    (∀ d, a ≠ Action.ChangeAddr d) ∧ changeAddrCalls as = [] := by
  cases a <;> simp_all [changeAddrCalls]

/-- A pending address change stays pending until the worker applies it, and
the worker applies exactly it, as long as `ChangeAddr` is not called again. -/
theorem exec_pending {conn : sendConn} (d : netAddrInfo) (applied : List (Nat × Nat)) :
    ∀ (acts : List Action) (h h' : sendQueue), changeAddrCalls acts = [] →
      exec conn h acts = some h' →
      ((h.changeAddr = some d ∧ setAddrs h.trace = applied) ∨
        (h.changeAddr = none ∧ setAddrs h.trace = applied ++ [(d.addr, d.info)])) →
      ((h'.changeAddr = some d ∧ setAddrs h'.trace = applied) ∨
        (h'.changeAddr = none ∧ setAddrs h'.trace = applied ++ [(d.addr, d.info)])) := by
  intro acts
  induction acts with
  | nil =>
    intro h h' _ he hj
    simp only [exec, Option.some.injEq] at he
    subst he
    exact hj
  | cons a as ih =>
    intro h h' hcalls he hj
    obtain ⟨hnc, hcalls'⟩ := changeAddrCalls_cons_nil hcalls
    simp only [exec] at he
    split at he
    · rename_i h1 hs
      refine ih h1 h' hcalls' he ?_
      cases a with
      | ChangeAddr d0 => exact absurd rfl (hnc d0)
      | Send p rnd =>
        simp only [step] at hs
        split at hs
        · rename_i hsend
          injection hs with hs
          subst hs
          rcases Send_returned hsend with ⟨_, rfl⟩ | ⟨_, rfl⟩
          · exact hj
          · exact hj
        · cases hs
      | Close =>
        simp only [step, Close] at hs
        split at hs
        · rename_i hc
          split at hc
          · injection hc with hc
            injection hs with hs
            subst hs
            subst hc
            exact hj
          · cases hc
          · cases hc
        · cases hs
      | recvAvailable =>
        simp only [step, recvAvailable] at hs
        split_ifs at hs
        injection hs with hs
        subst hs
        exact hj
      | RunIter rnd =>
        obtain ⟨_, ⟨_, _, rfl⟩ | ⟨_, rfl⟩ | ⟨p, rest, hq, _, rfl⟩ | ⟨p, rest, e, hq, _, rfl⟩ |
          ⟨d0, hd0, rfl⟩⟩ := Run.iter_cases hs
        · exact hj
        · exact hj
        · simpa [setAddrs, List.filterMap_append] using hj
        · simpa [setAddrs, List.filterMap_append] using hj
        · rcases hj with ⟨hd, happ⟩ | ⟨hd, _⟩
          · rw [hd0] at hd
            injection hd with hd
            subst hd
            right
            simp only [setAddrs] at happ
            simp [setAddrs, List.filterMap_append, happ]
          · rw [hd0] at hd
            cases hd
    · cases he

/-- C6, as the code has it.  When `ChangeAddr(d1)` and then `ChangeAddr(d2)`
are called from a state with no pending request, the first call returns true
and the second returns false: the older request `d1` stays pending and `d2`
is dropped.  As long as `ChangeAddr` is not called again, the worker makes at
most one further `SetRemoteAddr` call, and it carries the address and the
info of `d1`; those of `d2` are never applied. -/
theorem ChangeAddr_twice (conn : sendConn) (h : sendQueue) (d1 d2 : netAddrInfo)
    (hc : h.changeAddr = none) :
    (ChangeAddr h d1).1 = true ∧
    (ChangeAddr (ChangeAddr h d1).2 d2).1 = false ∧
    (ChangeAddr (ChangeAddr h d1).2 d2).2.changeAddr = some d1 ∧
    ∀ acts h', changeAddrCalls acts = [] →
      exec conn (ChangeAddr (ChangeAddr h d1).2 d2).2 acts = some h' →
      ((h'.changeAddr = some d1 ∧ setAddrs h'.trace = setAddrs h.trace) ∨
        (h'.changeAddr = none ∧
          setAddrs h'.trace = setAddrs h.trace ++ [(d1.addr, d1.info)])) := by
  have h1 : ChangeAddr h d1 = (true, { h with changeAddr := some d1 }) := by
    simp [ChangeAddr, hc]
  have h2 : ChangeAddr { h with changeAddr := some d1 } d2 =
      (false, { h with changeAddr := some d1 }) := by
    simp [ChangeAddr]
  rw [h1]
  simp only [h2]
  refine ⟨trivial, trivial, trivial, ?_⟩
  intro acts h' hcalls he
  exact exec_pending d1 (setAddrs h.trace) acts _ h' hcalls he (Or.inl ⟨rfl, rfl⟩)

theorem ChangeAddr_twice_witness :
    (ChangeAddr newSendQueue ⟨1, 10⟩).1 = true ∧
    (ChangeAddr (ChangeAddr newSendQueue ⟨1, 10⟩).2 ⟨2, 20⟩).1 = false ∧
    (ChangeAddr (ChangeAddr newSendQueue ⟨1, 10⟩).2 ⟨2, 20⟩).2.changeAddr = some ⟨1, 10⟩ ∧
    ((({ newSendQueue with trace := [Event.SetRemoteAddr 1 10] } : sendQueue).changeAddr =
        some ⟨1, 10⟩ ∧
      setAddrs ({ newSendQueue with trace := [Event.SetRemoteAddr 1 10] } : sendQueue).trace =
        setAddrs newSendQueue.trace) ∨
     (({ newSendQueue with trace := [Event.SetRemoteAddr 1 10] } : sendQueue).changeAddr = none ∧
      setAddrs ({ newSendQueue with trace := [Event.SetRemoteAddr 1 10] } : sendQueue).trace =
        setAddrs newSendQueue.trace ++ [(1, 10)])) :=
  ⟨(ChangeAddr_twice okConn newSendQueue ⟨1, 10⟩ ⟨2, 20⟩ (by decide)).1,
   (ChangeAddr_twice okConn newSendQueue ⟨1, 10⟩ ⟨2, 20⟩ (by decide)).2.1,
   (ChangeAddr_twice okConn newSendQueue ⟨1, 10⟩ ⟨2, 20⟩ (by decide)).2.2.1,
   (ChangeAddr_twice okConn newSendQueue ⟨1, 10⟩ ⟨2, 20⟩ (by decide)).2.2.2
     [Action.RunIter 0] _ (by decide) (by decide)⟩

/-- C6 fails as stated: after `ChangeAddr` with address 1 and then with
address 2 on a fresh dispatcher, the second call returns false and the
`SetRemoteAddr` call the worker makes carries address 1 and info 10, those of
the older request. -/
theorem ChangeAddr_second_dropped :
    (ChangeAddr (ChangeAddr newSendQueue ⟨1, 10⟩).2 ⟨2, 20⟩).1 = false ∧
    exec okConn newSendQueue
        [Action.ChangeAddr ⟨1, 10⟩, Action.ChangeAddr ⟨2, 20⟩, Action.RunIter 0] =
      some { newSendQueue with trace := [Event.SetRemoteAddr 1 10] } := by
  decide

/-- An uninterrupted loop iteration is its first half followed, when a buffer
was received, by its second half. -/
theorem Run.iter_eq_recv_finish (conn : sendConn) (h : sendQueue) (rnd : Nat) :
    Run.iter conn h rnd =
      match Run.recv h rnd with
      | some (h', some p) => some (Run.finish conn h' p)
      | some (h', none) => some h'
      | none => none := by
  unfold Run.iter Run.recv
  split_ifs
  · rfl
  · rfl
  · split
    · rfl
    · rfl
    · split
      · rfl
      · simp only [Run.finish]
        split <;> rfl
    · split
      · rfl
      · rfl

theorem fineSent_cons_nil {a : FineAction} {as : List FineAction}
    (hs : fineSent (a :: as) = []) :
    (∀ p rnd, a ≠ FineAction.Send p rnd) ∧ fineSent as = [] := by
  cases a <;> simp_all [fineSent]

theorem withDispatcher_some {s s' : fineState} {o : Option sendQueue}
    (hw : s.withDispatcher o = some s') : ∃ h', o = some h' ∧ s' = { s with h := h' } := by
  cases o with
  | none => simp [fineState.withDispatcher] at hw
  | some h' =>
    simp only [fineState.withDispatcher, Option.some.injEq] at hw
    exact ⟨h', rfl, hw.symm⟩

/-- The receive of the worker: when a buffer was received the queue lost it,
otherwise the queue is as it was. -/
theorem Run.recv_queue {h h' : sendQueue} {rnd : Nat} {held : Option packetBuffer}
    (hr : Run.recv h rnd = some (h', held)) :
    (held = none ∧ h'.queue = h.queue) ∨ (∃ p, held = some p ∧ h.queue = p :: h'.queue) := by
  unfold Run.recv at hr
  split_ifs at hr
  · simp only [Option.some.injEq, Prod.mk.injEq] at hr
    obtain ⟨rfl, rfl⟩ := hr
    exact Or.inl ⟨rfl, rfl⟩
  · split at hr
    · cases hr
    · simp only [Option.some.injEq, Prod.mk.injEq] at hr
      obtain ⟨rfl, rfl⟩ := hr
      exact Or.inl ⟨rfl, rfl⟩
    · split at hr
      · cases hr
      · rename_i p rest hq
        simp only [Option.some.injEq, Prod.mk.injEq] at hr
        obtain ⟨rfl, rfl⟩ := hr
        exact Or.inr ⟨p, rfl, hq⟩
    · split at hr
      · cases hr
      · simp only [Option.some.injEq, Prod.mk.injEq] at hr
        obtain ⟨rfl, rfl⟩ := hr
        exact Or.inl ⟨rfl, rfl⟩

theorem Run.finish_queue (conn : sendConn) (h : sendQueue) (p : packetBuffer) :
    (Run.finish conn h p).queue = h.queue := by
  unfold Run.finish
  split <;> rfl

/-- A fine-grained step other than `Send` does not make the queue longer. -/
theorem fineStep_noSend_queue {conn : sendConn} {s s' : fineState} {a : FineAction}
    (hs : fineStep conn s a = some s') (hns : ∀ p rnd, a ≠ FineAction.Send p rnd) :
    s'.h.queue.length ≤ s.h.queue.length := by
  cases a with
  | Send p rnd => exact absurd rfl (hns p rnd)
  | ChangeAddr d =>
    simp only [fineStep] at hs
    obtain ⟨h', hst, rfl⟩ := withDispatcher_some hs
    rw [(step_frame hst (by simp) (by simp)).1]
  | Close =>
    simp only [fineStep] at hs
    obtain ⟨h', hst, rfl⟩ := withDispatcher_some hs
    rw [(step_frame hst (by simp) (by simp)).1]
  | recvAvailable =>
    simp only [fineStep] at hs
    obtain ⟨h', hst, rfl⟩ := withDispatcher_some hs
    rw [(step_frame hst (by simp) (by simp)).1]
  | RunRecv rnd =>
    simp only [fineStep] at hs
    split at hs
    · cases hs
    · split at hs
      · rename_i h' held hr
        injection hs with hs
        subst hs
        rcases Run.recv_queue hr with ⟨_, hq⟩ | ⟨p, _, hq⟩
        · simp [hq]
        · simp [hq]
      · cases hs
  | RunFinish =>
    simp only [fineStep] at hs
    split at hs
    · injection hs with hs
      subst hs
      simp [Run.finish_queue]
    · cases hs

theorem fineExec_noSend_queue {conn : sendConn} :
    ∀ (acts : List FineAction) (s s' : fineState), fineSent acts = [] →
      fineExec conn s acts = some s' → s'.h.queue.length ≤ s.h.queue.length := by
  intro acts
  induction acts with
  | nil =>
    intro s s' _ he
    simp only [fineExec, Option.some.injEq] at he
    subst he
    exact Nat.le_refl _
  | cons a as ih =>
    intro s s' hsent he
    obtain ⟨hns, hsent'⟩ := fineSent_cons_nil hsent
    simp only [fineExec] at he
    split at he
    · rename_i s1 hs
      exact Nat.le_trans (ih s1 s' hsent' he) (fineStep_noSend_queue hs hns)
    · cases he

/-- No fine-grained step makes the queue longer than the capacity of the
channel. -/
theorem fineStep_queue_le {conn : sendConn} {s s' : fineState} {a : FineAction}
    (hs : fineStep conn s a = some s') (hle : s.h.queue.length ≤ sendQueueCapacity) :
    s'.h.queue.length ≤ sendQueueCapacity := by
  cases a with
  | Send p rnd =>
    simp only [fineStep] at hs
    obtain ⟨h', hst, rfl⟩ := withDispatcher_some hs
    exact step_queue_le hst hle
  | ChangeAddr d =>
    exact Nat.le_trans (fineStep_noSend_queue hs (by simp)) hle
  | Close =>
    exact Nat.le_trans (fineStep_noSend_queue hs (by simp)) hle
  | recvAvailable =>
    exact Nat.le_trans (fineStep_noSend_queue hs (by simp)) hle
  | RunRecv rnd =>
    exact Nat.le_trans (fineStep_noSend_queue hs (by simp)) hle
  | RunFinish =>
    exact Nat.le_trans (fineStep_noSend_queue hs (by simp)) hle

theorem fineExec_queue_le {conn : sendConn} :
    ∀ (acts : List FineAction) (s s' : fineState), fineExec conn s acts = some s' →
      s.h.queue.length ≤ sendQueueCapacity → s'.h.queue.length ≤ sendQueueCapacity := by
  intro acts
  induction acts with
  | nil =>
    intro s s' he hle
    simp only [fineExec, Option.some.injEq] at he
    subst he
    exact hle
  | cons a as ih =>
    intro s s' he hle
    simp only [fineExec] at he
    split at he
    · rename_i s1 hs
      exact ih s1 s' he (fineStep_queue_le hs hle)
    · cases he

/-- With producers running between the two halves of a loop iteration, the
worker can post the readiness token on a full queue: the slot freed by the
receive is taken by an admission made before the token is posted. -/
theorem token_posted_on_full_queue :
    fineExec okConn fineInit lateSendActs = some lateSend ∧
    Available lateSend.h = true ∧
    WouldBlock lateSend.h = true := by
  decide

/-- C10, as the code has it.  Take any state reached from a fresh dispatcher
by producer calls and worker steps, producers being free to run between the
receive `p := <-h.queue` and the rest of that case.  Let the worker receive a
buffer there, and let `Send` not be called from that receive on.  Then when
the worker finishes a successful write, the readiness token is pending and the
queue is not at capacity, and the queue stays below capacity for as long as
`Send` is still not called.  (A buffer admitted after the receive, before or
after the token is posted, can fill the queue while the token is pending.) -/
theorem token_posted_with_room (conn : sendConn) (acts acts1 acts2 : List FineAction)
    (s s1 s2 s3 s4 : fineState) (rnd : Nat) (p q : packetBuffer)
    (hreach : fineExec conn fineInit acts = some s)
    (hrecv : fineStep conn s (FineAction.RunRecv rnd) = some s1)
    (hheld : s1.held = some p)
    (hno1 : fineSent acts1 = [])
    (he1 : fineExec conn s1 acts1 = some s2)
    (hfin : fineStep conn s2 FineAction.RunFinish = some s3)
    (hok : s3.h.trace = s2.h.trace ++ [Event.Write q none, Event.Release q])
    (hno2 : fineSent acts2 = [])
    (he2 : fineExec conn s3 acts2 = some s4) :
    Available s3.h = true ∧ WouldBlock s3.h = false ∧ WouldBlock s4.h = false := by
  have hle : s.h.queue.length ≤ sendQueueCapacity :=
    fineExec_queue_le acts fineInit s hreach (by simp [fineInit, newSendQueue])
  have h1 : s1.h.queue.length + 1 = s.h.queue.length := by
    simp only [fineStep] at hrecv
    split at hrecv
    · cases hrecv
    · split at hrecv
      · rename_i h' held hr
        injection hrecv with hrecv
        subst hrecv
        rcases Run.recv_queue hr with ⟨hn, _⟩ | ⟨p', _, hq⟩
        · simp only [] at hheld
          rw [hn] at hheld
          cases hheld
        · simp [hq]
      · cases hrecv
  have h2 := fineExec_noSend_queue acts1 s1 s2 hno1 he1
  have h3 := fineStep_noSend_queue hfin (by simp)
  have h4 := fineExec_noSend_queue acts2 s3 s4 hno2 he2
  have hav : Available s3.h = true := by
    simp only [fineStep] at hfin
    split at hfin
    · rename_i p' _
      injection hfin with hfin
      subst hfin
      simp only [Run.finish] at hok ⊢
      split at hok
      · simp at hok
      · rename_i hw
        simp [Available, hw]
    · cases hfin
  simp only [sendQueueCapacity] at hle
  refine ⟨hav, ?_, ?_⟩
  · simp only [WouldBlock, sendQueueCapacity, beq_eq_false_iff_ne]
    omega
  · simp only [WouldBlock, sendQueueCapacity, beq_eq_false_iff_ne]
    omega

theorem token_posted_with_room_witness :
    Available twoQueuedPosted.h = true ∧ WouldBlock twoQueuedPosted.h = false ∧
    WouldBlock twoQueuedTaken.h = false :=
  token_posted_with_room okConn [FineAction.Send (buf 1) 0, FineAction.Send (buf 2) 0]
    [FineAction.ChangeAddr ⟨1, 1⟩] [FineAction.recvAvailable]
    twoQueued twoQueuedRecv twoQueuedAddr twoQueuedPosted twoQueuedTaken 0 (buf 1) (buf 1)
    (by decide) (by decide) (by decide) (by decide) (by decide) (by decide) (by decide)
    (by decide) (by decide)

/-- C10 fails as stated: `tokenFull` is reached from a fresh dispatcher by
admissions into a queue with room and one loop iteration of `Run`; the
readiness token is pending and yet the queue is at capacity, so that a
producer who takes the token and calls `Send` makes it panic. -/
theorem token_pending_queue_full :
    exec okConn newSendQueue tokenFullActs = some tokenFull ∧
    sendsAdmitted okConn newSendQueue tokenFullActs = true ∧
    Available tokenFull = true ∧
    WouldBlock tokenFull = true ∧
    recvAvailable tokenFull = some { tokenFull with available := false } ∧
    Send { tokenFull with available := false } (buf 10) 0 =
      Outcome.panicked "sendQueue.Send would have blocked" := by
  decide

theorem okWrites_sublist (tr : List Event) : (okWrites tr).Sublist (writes tr) := by
  induction tr with
  | nil => simp [okWrites, writes]
  | cons ev tr ih =>
    simp only [okWrites, writes] at ih ⊢
    cases ev with
    | Write p err =>
      cases err with
      | none => simpa [List.filterMap_cons] using ih
      | some e =>
        simp only [List.filterMap_cons]
        exact List.Sublist.cons _ ih
    | Release p => simpa [List.filterMap_cons] using ih
    | SetRemoteAddr a i => simpa [List.filterMap_cons] using ih

theorem step_disciplined {conn : sendConn} {h h' : sendQueue} {a : Action}
    (hs : step conn h a = some h') (hk : disciplined h) : disciplined h' := by
  have same : h'.trace = h.trace → h'.runStopped = h.runStopped → disciplined h' := by
    intro ht hr
    unfold disciplined at hk ⊢
    rw [ht, hr]
    exact hk
  cases a with
  | Send p rnd =>
    simp only [step] at hs
    split at hs
    · rename_i hsend
      injection hs with hs
      subst hs
      rcases Send_returned hsend with ⟨_, rfl⟩ | ⟨_, rfl⟩
      · exact same rfl rfl
      · exact hk
    · cases hs
  | ChangeAddr d =>
    obtain ⟨_, h2, h3, _⟩ := step_frame hs (by simp) (by simp)
    exact same h2 h3
  | Close =>
    obtain ⟨_, h2, h3, _⟩ := step_frame hs (by simp) (by simp)
    exact same h2 h3
  | recvAvailable =>
    obtain ⟨_, h2, h3, _⟩ := step_frame hs (by simp) (by simp)
    exact same h2 h3
  | RunIter rnd =>
    obtain ⟨⟨ps, tail, hps, htail⟩, hrel⟩ := hk
    obtain ⟨hrun, hcases⟩ := Run.iter_cases hs
    have htl : tail = [] := by
      rcases htail with ht | ⟨hstop, _⟩
      · exact ht
      · rw [hrun] at hstop
        cases hstop
    subst htl
    rcases hcases with ⟨_, _, rfl⟩ | ⟨_, rfl⟩ | ⟨p, rest, hq, _, rfl⟩ | ⟨p, rest, e, hq, _, rfl⟩ |
      ⟨d, _, rfl⟩
    · exact ⟨⟨ps, [], hps, Or.inl rfl⟩, hrel⟩
    · exact ⟨⟨ps, [], hps, Or.inl rfl⟩, hrel⟩
    · refine ⟨⟨ps ++ [p], [], ?_, Or.inl rfl⟩, ?_⟩
      · simp only [bufferEvents] at hps
        simp [bufferEvents, List.filter_append, hps, List.flatMap_append, writeThenRelease]
      · simp only [releases, okWrites] at hrel
        simp [releases, okWrites, List.filterMap_append, hrel]
    · refine ⟨⟨ps, [Event.Write p (some e)], ?_, Or.inr ⟨rfl, p, e, rfl⟩⟩, ?_⟩
      · simp only [bufferEvents] at hps
        simp [bufferEvents, List.filter_append, hps]
      · simp only [releases, okWrites] at hrel
        simp [releases, okWrites, List.filterMap_append, hrel]
    · refine ⟨⟨ps, [], ?_, Or.inl rfl⟩, ?_⟩
      · simp only [bufferEvents] at hps
        simp [bufferEvents, List.filter_append, hps]
      · simp only [releases, okWrites] at hrel
        simp [releases, okWrites, List.filterMap_append, hrel]

theorem exec_disciplined {conn : sendConn} :
    ∀ (acts : List Action) (h h' : sendQueue), exec conn h acts = some h' →
      disciplined h → disciplined h' := by
  intro acts
  induction acts with
  | nil =>
    intro h h' he hk
    simp only [exec, Option.some.injEq] at he
    subst he
    exact hk
  | cons a as ih =>
    intro h h' he hk
    simp only [exec] at he
    split at he
    · rename_i h1 hs
      exact ih h1 h' he (step_disciplined hs hk)
    · cases he

/-- C5, as the code has it.  In every execution from a fresh dispatcher, the
buffer events of the worker are successful writes each directly followed by
the release of the buffer just written, possibly ended by a single failed
write on which `Run` returned; the released buffers are exactly the
successfully written ones, in order.  So a buffer is released once, right
after its successful write.  When every `Send` was admitted into a running
dispatcher with room and the admitted buffers are distinct, no buffer is
released twice and no released buffer is still queued. -/
theorem release_after_successful_write (conn : sendConn) (acts : List Action) (h : sendQueue)
    (he : exec conn newSendQueue acts = some h) :
    (∃ (ps : List packetBuffer) (tail : List Event),
      bufferEvents h.trace = ps.flatMap writeThenRelease ++ tail ∧
      (tail = [] ∨ (h.runStopped = true ∧ ∃ q e, tail = [Event.Write q (some e)]))) ∧
    releases h.trace = okWrites h.trace ∧
    (sendsAdmitted conn newSendQueue acts = true → (sent acts).Nodup →
      (releases h.trace).Nodup ∧ ∀ p ∈ releases h.trace, p ∉ h.queue) := by
  have hinit : disciplined newSendQueue :=
    ⟨⟨[], [], by simp [bufferEvents, newSendQueue], Or.inl rfl⟩,
      by simp [releases, okWrites, newSendQueue]⟩
  obtain ⟨hpat, hrel⟩ := exec_disciplined acts newSendQueue h he hinit
  refine ⟨hpat, hrel, ?_⟩
  intro hadm hnd
  have hord := exec_order acts newSendQueue h he hadm
  simp only [newSendQueue, writes, List.filterMap_nil, List.nil_append] at hord
  rw [← hord, List.nodup_append] at hnd
  obtain ⟨hw, _, hdis⟩ := hnd
  rw [hrel]
  refine ⟨(okWrites_sublist h.trace).nodup hw, ?_⟩
  intro p hp hq
  exact hdis ((okWrites_sublist h.trace).subset hp) hq

theorem release_after_successful_write_witness :
    (∃ (ps : List packetBuffer) (tail : List Event),
      bufferEvents orderState.trace = ps.flatMap writeThenRelease ++ tail ∧
      (tail = [] ∨
        (orderState.runStopped = true ∧ ∃ q e, tail = [Event.Write q (some e)]))) ∧
    releases orderState.trace = okWrites orderState.trace ∧
    (releases orderState.trace).Nodup ∧ ∀ p ∈ releases orderState.trace, p ∉ orderState.queue :=
  ⟨(release_after_successful_write okConn orderActs orderState (by decide)).1,
   (release_after_successful_write okConn orderActs orderState (by decide)).2.1,
   (release_after_successful_write okConn orderActs orderState (by decide)).2.2
     (by decide) (by decide)⟩

/-- C5 fails as stated: on a connection whose first write fails, the buffer
`buf 1` is dequeued and handed to `conn.Write`, `Run` returns the error, and
`Release` is not called on it. -/
theorem failed_write_not_released :
    exec (failAt 1 7) newSendQueue [Action.Send (buf 1) 0, Action.RunIter 0] =
      some failedFirst ∧
    writes failedFirst.trace = [buf 1] ∧
    releases failedFirst.trace = [] ∧
    failedFirst.runStopped = true ∧
    failedFirst.ret = some (some 7) := by
  decide

/-! ## The worker on its own -/

theorem Run_stopped (conn : sendConn) (rnds : List Nat) (h : sendQueue)
    (hr : h.runStopped = true) : Run conn rnds h = h := by
  cases rnds with
  | nil => rfl
  | cons r rs => simp [Run, Run.iter, hr]

/-- What `Run` does on its own is an execution made of loop iterations. -/
theorem Run_exec (conn : sendConn) :
    ∀ (rnds : List Nat) (h : sendQueue),
      ∃ acts, sent acts = [] ∧ exec conn h acts = some (Run conn rnds h) := by
  intro rnds
  induction rnds with
  | nil => intro h; exact ⟨[], rfl, rfl⟩
  | cons r rs ih =>
    intro h
    cases hi : Run.iter conn h r with
    | none => exact ⟨[], rfl, by simp [Run, hi, exec]⟩
    | some h1 =>
      obtain ⟨acts, hsent, he⟩ := ih h1
      refine ⟨Action.RunIter r :: acts, by simpa [sent] using hsent, ?_⟩
      simp [Run, hi, exec, step, he]

/-- A loop iteration does not block when some case of the `select` is ready
or the loop is about to return. -/
theorem Run.iter_some (conn : sendConn) (h : sendQueue) (rnd : Nat)
    (hrun : h.runStopped = false) (hne : Run.ready h ≠ [] ∨ h.shouldClose = true) :
    ∃ h1, Run.iter conn h rnd = some h1 := by
  unfold Run.iter
  simp only [hrun, Bool.false_eq_true, if_false]
  split_ifs with hret
  · exact ⟨_, rfl⟩
  · have hready : Run.ready h ≠ [] := by
      rcases hne with hne | hsc
      · exact hne
      · have hq : h.queue.length ≠ 0 := by
          intro hz
          simp [hsc, hz] at hret
        simp [Run.ready, hq]
    obtain ⟨c, hc⟩ := selectReady_some hready rnd
    have hm := selectReady_mem hc
    rw [hc]
    cases c with
    | closeCalled => exact ⟨_, rfl⟩
    | queue =>
      cases hq : h.queue with
      | nil => simp [Run.ready, hq] at hm
      | cons p rest =>
        dsimp only
        cases hw : conn.Write h.trace p.Data with
        | none => exact ⟨_, rfl⟩
        | some e => exact ⟨_, rfl⟩
    | changeAddr =>
      cases hd : h.changeAddr with
      | none => simp [Run.ready, hd] at hm
      | some d => exact ⟨_, rfl⟩

/-- On a connection that never fails and without admissions, the buffers
written followed by the buffers queued stay the same, and `Run` returns only
`nil` and only on an empty queue. -/
theorem exec_drain {conn : sendConn} (hconn : ∀ tr data, conn.Write tr data = none)
    (W OW : List packetBuffer) :
    ∀ (acts : List Action) (h h' : sendQueue), sent acts = [] →
      exec conn h acts = some h' →
      (writes h.trace ++ h.queue = W ∧ okWrites h.trace ++ h.queue = OW ∧
        (h.runStopped = true → h.ret = some none ∧ h.queue = [])) →
      (writes h'.trace ++ h'.queue = W ∧ okWrites h'.trace ++ h'.queue = OW ∧
        (h'.runStopped = true → h'.ret = some none ∧ h'.queue = [])) := by
  intro acts
  induction acts with
  | nil =>
    intro h h' _ he hj
    simp only [exec, Option.some.injEq] at he
    subst he
    exact hj
  | cons a as ih =>
    intro h h' hsent he hj
    obtain ⟨hns, hsent'⟩ := sent_cons_nil hsent
    simp only [exec] at he
    split at he
    · rename_i h1 hs
      refine ih h1 h' hsent' he ?_
      have frame : h1.queue = h.queue → h1.trace = h.trace → h1.runStopped = h.runStopped →
          h1.ret = h.ret →
          (writes h1.trace ++ h1.queue = W ∧ okWrites h1.trace ++ h1.queue = OW ∧
            (h1.runStopped = true → h1.ret = some none ∧ h1.queue = [])) := by
        intro e1 e2 e3 e4
        rw [e1, e2, e3, e4]
        exact hj
      cases a with
      | Send p rnd => exact absurd rfl (hns p rnd)
      | ChangeAddr d =>
        obtain ⟨e1, e2, e3, e4, _⟩ := step_frame hs (by simp) (by simp)
        exact frame e1 e2 e3 e4
      | Close =>
        obtain ⟨e1, e2, e3, e4, _⟩ := step_frame hs (by simp) (by simp)
        exact frame e1 e2 e3 e4
      | recvAvailable =>
        obtain ⟨e1, e2, e3, e4, _⟩ := step_frame hs (by simp) (by simp)
        exact frame e1 e2 e3 e4
      | RunIter rnd =>
        obtain ⟨hW, hOW, _⟩ := hj
        obtain ⟨hrun, ⟨_, hq, rfl⟩ | ⟨_, rfl⟩ | ⟨p, rest, hq, _, rfl⟩ |
          ⟨p, rest, e, hq, hw, rfl⟩ | ⟨d, _, rfl⟩⟩ := Run.iter_cases hs
        · exact ⟨hW, hOW, fun _ => ⟨rfl, hq⟩⟩
        · refine ⟨hW, hOW, fun hstop => ?_⟩
          simp only [hrun] at hstop
          cases hstop
        · refine ⟨?_, ?_, fun hstop => ?_⟩
          · rw [← hW]
            simp [writes, List.filterMap_append, hq]
          · rw [← hOW]
            simp [okWrites, List.filterMap_append, hq]
          · simp only [hrun] at hstop
            cases hstop
        · rw [hconn] at hw
          cases hw
        · refine ⟨?_, ?_, fun hstop => ?_⟩
          · rw [← hW]
            simp [writes, List.filterMap_append]
          · rw [← hOW]
            simp [okWrites, List.filterMap_append]
          · simp only [hrun] at hstop
            cases hstop
    · cases he

/-- With the close signal raised and a connection that never fails, `Run` on
its own returns within `len(queue) + sideWork + 1` loop iterations. -/
theorem Run_drains {conn : sendConn} (hconn : ∀ tr data, conn.Write tr data = none) :
    ∀ (rnds : List Nat) (h : sendQueue), h.runStopped = false → closeRaised h →
      h.queue.length + sideWork h < rnds.length → (Run conn rnds h).runStopped = true := by
  intro rnds
  induction rnds with
  | nil => intro h _ _ hlt; simp at hlt
  | cons r rs ih =>
    intro h hrun hclose hlt
    simp only [List.length_cons] at hlt
    have hne : Run.ready h ≠ [] ∨ h.shouldClose = true := by
      rcases hclose with hc | hc
      · left
        simp [Run.ready, hc]
      · exact Or.inr hc
    obtain ⟨h1, hi⟩ := Run.iter_some conn h r hrun hne
    simp only [Run, hi]
    obtain ⟨_, ⟨_, _, rfl⟩ | ⟨hc, rfl⟩ | ⟨p, rest, hq, _, rfl⟩ | ⟨p, rest, e, hq, hw, rfl⟩ |
      ⟨d, hd, rfl⟩⟩ := Run.iter_cases hi
    · rw [Run_stopped conn rs _ rfl]
    · apply ih
      · exact hrun
      · exact Or.inr rfl
      · have hn : (Chan.nilled = Chan.closed) = False := by simp
        simp only [sideWork, hc, if_true] at hlt
        simp only [sideWork, hn, if_false]
        split_ifs at hlt ⊢ <;> omega
    · apply ih
      · exact hrun
      · rcases hclose with hc | hc
        · exact Or.inl hc
        · exact Or.inr hc
      · simp only [hq, List.length_cons] at hlt
        simp only [sideWork] at hlt ⊢
        omega
    · rw [hconn] at hw
      cases hw
    · apply ih
      · exact hrun
      · rcases hclose with hc | hc
        · exact Or.inl hc
        · exact Or.inr hc
      · simp only [sideWork, hd, Option.isSome_some, if_true] at hlt
        simp only [sideWork, Option.isSome_none, Bool.false_eq_true, if_false]
        omega

theorem sideWork_le (h : sendQueue) : sideWork h ≤ 2 := by
  unfold sideWork
  split_ifs <;> omega

/-- C2 (graceful drain).  Let the close signal be raised while `K` buffers are
queued and the worker loop is running, on a connection whose `Write` never
fails.  In every execution from there in which `Send` is not called, whenever
`Run` has returned it has returned `nil`, the queue is empty, and the writes
it made since are exactly the `K` queued buffers, each once, in order and all
successful.  And `Run` does return: left on its own it returns `nil` within
`K + 3` loop iterations, whatever its `select` picks. -/
theorem graceful_drain (conn : sendConn) (K : Nat) (h : sendQueue)
    (hconn : ∀ tr data, conn.Write tr data = none)
    (hrun : h.runStopped = false) (hclose : closeRaised h) (hK : h.queue.length = K) :
    (∀ acts h', sent acts = [] → exec conn h acts = some h' → h'.runStopped = true →
      h'.ret = some none ∧ h'.queue = [] ∧
      writes h'.trace = writes h.trace ++ h.queue ∧
      okWrites h'.trace = okWrites h.trace ++ h.queue ∧
      (writes h'.trace).length = (writes h.trace).length + K) ∧
    (∀ rnds, K + 3 ≤ rnds.length →
      (Run conn rnds h).runStopped = true ∧ (Run conn rnds h).ret = some none ∧
      (Run conn rnds h).queue = [] ∧
      writes (Run conn rnds h).trace = writes h.trace ++ h.queue ∧
      (writes (Run conn rnds h).trace).length = (writes h.trace).length + K) := by
  have safety : ∀ acts h', sent acts = [] → exec conn h acts = some h' →
      h'.runStopped = true →
      h'.ret = some none ∧ h'.queue = [] ∧
      writes h'.trace = writes h.trace ++ h.queue ∧
      okWrites h'.trace = okWrites h.trace ++ h.queue ∧
      (writes h'.trace).length = (writes h.trace).length + K := by
    intro acts h' hsent he hstop
    obtain ⟨hW, hOW, hret⟩ := exec_drain hconn _ _ acts h h' hsent he
      ⟨rfl, rfl, fun hs => by rw [hrun] at hs; cases hs⟩
    obtain ⟨hnil, hq⟩ := hret hstop
    rw [hq, List.append_nil] at hW hOW
    refine ⟨hnil, hq, hW, hOW, ?_⟩
    rw [hW, List.length_append, hK]
  refine ⟨safety, ?_⟩
  intro rnds hfuel
  have hstop : (Run conn rnds h).runStopped = true := by
    apply Run_drains hconn rnds h hrun hclose
    have := sideWork_le h
    omega
  obtain ⟨acts, hsent, he⟩ := Run_exec conn rnds h
  obtain ⟨h1, h2, h3, _, h5⟩ := safety acts _ hsent he hstop
  exact ⟨hstop, h1, h2, h3, h5⟩

theorem graceful_drain_witness :
    (drainEnd.ret = some none ∧ drainEnd.queue = [] ∧
      writes drainEnd.trace = writes drainStart.trace ++ drainStart.queue ∧
      okWrites drainEnd.trace = okWrites drainStart.trace ++ drainStart.queue ∧
      (writes drainEnd.trace).length = (writes drainStart.trace).length + 2) ∧
    ((Run okConn [0, 0, 0, 0, 0] drainStart).runStopped = true ∧
      (Run okConn [0, 0, 0, 0, 0] drainStart).ret = some none ∧
      (Run okConn [0, 0, 0, 0, 0] drainStart).queue = [] ∧
      writes (Run okConn [0, 0, 0, 0, 0] drainStart).trace =
        writes drainStart.trace ++ drainStart.queue ∧
      (writes (Run okConn [0, 0, 0, 0, 0] drainStart).trace).length =
        (writes drainStart.trace).length + 2) :=
  ⟨(graceful_drain okConn 2 drainStart (fun _ _ => rfl) (by decide) (Or.inl rfl)
      (by decide)).1 drainActs drainEnd (by decide) (by decide) (by decide),
   (graceful_drain okConn 2 drainStart (fun _ _ => rfl) (by decide) (Or.inl rfl)
      (by decide)).2 [0, 0, 0, 0, 0] (by decide)⟩

/-- When the `k`-th write from now on is the first to fail, with `e`, and at
least `k` buffers are queued, `Run` on its own returns `e` on that write
within `k + sideWork` loop iterations. -/
theorem Run_fails {conn : sendConn} (e : Error) :
    ∀ (rnds : List Nat) (k : Nat) (h : sendQueue), 1 ≤ k → k ≤ h.queue.length →
      h.runStopped = false →
      (∀ tr data, (writes tr).length + 1 < (writes h.trace).length + k →
        conn.Write tr data = none) →
      (∀ tr data, (writes tr).length + 1 = (writes h.trace).length + k →
        conn.Write tr data = some e) →
      k + sideWork h ≤ rnds.length →
      (Run conn rnds h).runStopped = true ∧
      (Run conn rnds h).ret = some (some e) ∧
      writes (Run conn rnds h).trace = writes h.trace ++ h.queue.take k ∧
      okWrites (Run conn rnds h).trace = okWrites h.trace ++ h.queue.take (k - 1) ∧
      (Run conn rnds h).queue = h.queue.drop k ∧
      (Run conn rnds h).trace.getLast? =
        (h.queue[k - 1]?).map fun p => Event.Write p (some e) := by
  intro rnds
  induction rnds with
  | nil =>
    intro k h hk _ _ _ _ hfuel
    simp only [List.length_nil] at hfuel
    omega
  | cons r rs ih =>
    intro k h hk hq hrun hok hfail hfuel
    simp only [List.length_cons] at hfuel
    have hne : Run.ready h ≠ [] := by
      have : h.queue.length ≠ 0 := by omega
      simp [Run.ready, this]
    obtain ⟨h1, hi⟩ := Run.iter_some conn h r hrun (Or.inl hne)
    simp only [Run, hi]
    obtain ⟨_, ⟨_, hnil, rfl⟩ | ⟨hc, rfl⟩ | ⟨p, rest, hpq, hw, rfl⟩ | ⟨p, rest, e', hpq, hw, rfl⟩ |
      ⟨d, hd, rfl⟩⟩ := Run.iter_cases hi
    · rw [hnil] at hq
      simp only [List.length_nil] at hq
      omega
    · have hn : (Chan.nilled = Chan.closed) = False := by simp
      have hside : k + sideWork
          { h with closeCalled := Chan.nilled, shouldClose := true } ≤ rs.length := by
        simp only [sideWork, hc, if_true] at hfuel
        simp only [sideWork, hn, if_false]
        omega
      exact ih k _ hk hq hrun hok hfail hside
    · have hk2 : 2 ≤ k := by
        by_contra hlt
        have hk1 : k = 1 := by omega
        rw [hfail h.trace p.Data (by rw [hk1])] at hw
        cases hw
      obtain ⟨j, rfl⟩ : ∃ j, k = j + 1 := ⟨k - 1, by omega⟩
      rw [hpq] at hq
      simp only [List.length_cons] at hq
      have hlen : (writes (h.trace ++ [Event.Write p none, Event.Release p])).length =
          (writes h.trace).length + 1 := by
        simp [writes, List.filterMap_append]
      have hside : j + sideWork
          { h with
            queue := rest
            trace := h.trace ++ [Event.Write p none, Event.Release p]
            available := true } ≤ rs.length := by
        simp only [sideWork] at hfuel ⊢
        omega
      obtain ⟨r1, r2, r3, r4, r6, r7⟩ := ih j
        { h with
          queue := rest
          trace := h.trace ++ [Event.Write p none, Event.Release p]
          available := true }
        (by omega) (by simpa using (by omega : j ≤ rest.length)) hrun
        (by
          intro tr data hlt
          apply hok
          simp only [hlen] at hlt
          omega)
        (by
          intro tr data heq
          apply hfail
          simp only [hlen] at heq
          omega)
        hside
      refine ⟨r1, r2, ?_, ?_, ?_, ?_⟩
      · rw [r3, hpq]
        simp [writes, List.filterMap_append]
      · rw [r4, hpq]
        obtain ⟨i, rfl⟩ : ∃ i, j = i + 1 := ⟨j - 1, by omega⟩
        simp [okWrites, List.filterMap_append]
      · rw [r6, hpq]
        simp
      · rw [r7, hpq]
        obtain ⟨i, rfl⟩ : ∃ i, j = i + 1 := ⟨j - 1, by omega⟩
        simp
    · have hk1 : k = 1 := by
        by_contra hne1
        rw [hok h.trace p.Data (by omega)] at hw
        cases hw
      subst hk1
      rw [hfail h.trace p.Data rfl] at hw
      injection hw with hw
      subst hw
      rw [Run_stopped conn rs _ rfl]
      refine ⟨rfl, rfl, ?_, ?_, ?_, ?_⟩
      · simp [writes, List.filterMap_append, hpq]
      · simp [okWrites, List.filterMap_append]
      · simp [hpq]
      · simp [hpq]
    · have hwr : writes (h.trace ++ [Event.SetRemoteAddr d.addr d.info]) = writes h.trace := by
        simp [writes, List.filterMap_append]
      have hside : k + sideWork
          { h with
            changeAddr := none
            trace := h.trace ++ [Event.SetRemoteAddr d.addr d.info] } ≤ rs.length := by
        simp only [sideWork, hd, Option.isSome_some, if_true] at hfuel
        simp only [sideWork, Option.isSome_none, Bool.false_eq_true, if_false]
        omega
      obtain ⟨r1, r2, r3, r4, r6, r7⟩ := ih k
        { h with
          changeAddr := none
          trace := h.trace ++ [Event.SetRemoteAddr d.addr d.info] }
        hk hq hrun
        (by
          intro tr data hlt
          apply hok
          simpa only [hwr] using hlt)
        (by
          intro tr data heq
          apply hfail
          simpa only [hwr] using heq)
        hside
      refine ⟨r1, r2, ?_, ?_, r6, r7⟩
      · rw [r3, hwr]
      · rw [r4]
        simp [okWrites, List.filterMap_append]

/-- C8 (failure propagation).  Let `k ≥ 1`, let at least `k` buffers be queued
in a running dispatcher, and let the `k`-th `conn.Write` call from now on be
the first to fail, returning `e`.  Then `Run`, left on its own for at least
`k + 2` loop iterations, returns exactly `e`: it has made exactly `k` `Write`
calls, on the first `k` queued buffers in order, the first `k - 1` of them
successful; the failing `Write` is the last thing it did, so no `Write` and no
`SetRemoteAddr` follows it, whatever is called afterwards; and the buffers
queued behind the failing one are still queued, never written. -/
theorem failure_propagation (conn : sendConn) (k : Nat) (e : Error) (h : sendQueue)
    (rnds : List Nat) (hk : 1 ≤ k) (hq : k ≤ h.queue.length) (hrun : h.runStopped = false)
    (hok : ∀ tr data, (writes tr).length + 1 < (writes h.trace).length + k →
      conn.Write tr data = none)
    (hfail : ∀ tr data, (writes tr).length + 1 = (writes h.trace).length + k →
      conn.Write tr data = some e)
    (hfuel : k + 2 ≤ rnds.length) :
    (Run conn rnds h).runStopped = true ∧
    (Run conn rnds h).ret = some (some e) ∧
    writes (Run conn rnds h).trace = writes h.trace ++ h.queue.take k ∧
    okWrites (Run conn rnds h).trace = okWrites h.trace ++ h.queue.take (k - 1) ∧
    (Run conn rnds h).queue = h.queue.drop k ∧
    (Run conn rnds h).trace.getLast? = (h.queue[k - 1]?).map (fun p => Event.Write p (some e)) ∧
    (∀ rnd, Run.iter conn (Run conn rnds h) rnd = none) ∧
    (∀ acts h', exec conn (Run conn rnds h) acts = some h' →
      h'.trace = (Run conn rnds h).trace) := by
  have hside := sideWork_le h
  obtain ⟨r1, r2, r3, r4, r6, r7⟩ :=
    Run_fails e rnds k h hk hq hrun hok hfail (by omega)
  refine ⟨r1, r2, r3, r4, r6, r7, ?_, ?_⟩
  · intro rnd
    simp [Run.iter, r1]
  · intro acts h' he
    exact (exec_stopped acts _ h' r1 he).2

theorem failure_propagation_witness :
    (Run (failAt 3 7) [0, 0, 0, 0, 0] fiveQueued).runStopped = true ∧
    (Run (failAt 3 7) [0, 0, 0, 0, 0] fiveQueued).ret = some (some 7) ∧
    writes (Run (failAt 3 7) [0, 0, 0, 0, 0] fiveQueued).trace =
      writes fiveQueued.trace ++ fiveQueued.queue.take 3 ∧
    okWrites (Run (failAt 3 7) [0, 0, 0, 0, 0] fiveQueued).trace =
      okWrites fiveQueued.trace ++ fiveQueued.queue.take (3 - 1) ∧
    (Run (failAt 3 7) [0, 0, 0, 0, 0] fiveQueued).queue = fiveQueued.queue.drop 3 ∧
    (Run (failAt 3 7) [0, 0, 0, 0, 0] fiveQueued).trace.getLast? =
      (fiveQueued.queue[3 - 1]?).map (fun p => Event.Write p (some 7)) ∧
    (∀ rnd, Run.iter (failAt 3 7) (Run (failAt 3 7) [0, 0, 0, 0, 0] fiveQueued) rnd = none) ∧
    (∀ acts h', exec (failAt 3 7) (Run (failAt 3 7) [0, 0, 0, 0, 0] fiveQueued) acts = some h' →
      h'.trace = (Run (failAt 3 7) [0, 0, 0, 0, 0] fiveQueued).trace) :=
  failure_propagation (failAt 3 7) 3 7 fiveQueued [0, 0, 0, 0, 0] (by decide) (by decide)
    (by decide)
    (by
      intro tr data hlt
      have hne : (writes tr).length ≠ 2 := by
        simp only [fiveQueued, newSendQueue, writes, List.filterMap_nil, List.length_nil] at hlt
        simp only [writes]
        omega
      simp [failAt, hne])
    (by
      intro tr data heq
      have h3 : (writes tr).length = 2 := by
        simpa [fiveQueued, newSendQueue, writes] using heq
      simp [failAt, h3])
    (by decide)

end SendQueue
